import Mathlib

/-!
Verification of the match-highlighting renderer of django-grep-db
(`django_grepdb/management/commands/grepdb.py`).

The embedding works over `List Char` texts.  Python string slicing
(including its negative-index wrap-around and clamping), `str.strip`,
`str.splitlines`, `int(...)` parsing and the ANSI colour markers produced
by `colored(text, 'grey', 'on_yellow')` are modelled explicitly.  The
regular-expression engine is embedded for the fragment of Python `re`
exercised here: concatenations of literal characters, escaped literal
punctuation and `.`, with the `DOTALL` and `IGNORECASE` flags; pattern
strings outside that fragment are mapped to a separate `outside` verdict
so that no theorem quantifies over patterns the model does not cover.
-/

/-- The ANSI escape character `\x1b`, first byte of every colour marker. -/
def esc : Char := '\x1b'

/-- Python whitespace for `str.strip` and `int(...)`: space, tab, LF, CR, VT, FF. -/
def isPyWs (c : Char) : Bool :=
  c = ' ' || c = '\t' || c = '\n' || c = '\r' || c = '\x0b' || c = '\x0c'

/-- Tail of the first half of the highlight-opening marker (`on_yellow`). -/
def opTag1 : List Char := ['[', '4', '3', 'm']

/-- Tail of the second half of the highlight-opening marker (`grey`). -/
def opTag2 : List Char := ['[', '3', '0', 'm']

/-- Tail of the highlight-closing marker (colour reset). -/
def clTag : List Char := ['[', '0', 'm']

/-- Opening marker emitted by `colored(text, 'grey', 'on_yellow')`. -/
def hlOpen : List Char := esc :: opTag1 ++ esc :: opTag2

/-- Closing (reset) marker emitted by `colored`. -/
def hlClose : List Char := esc :: clTag

/-- `colored(s, 'grey', 'on_yellow')` from termcolor: wrap `s` in the two markers. -/
def colored (s : List Char) : List Char := hlOpen ++ s ++ hlClose

/-- Resolve a Python slice endpoint: negative indices count from the end and
clamp at 0, positive ones clamp at the length. -/
def pyIdx (len : Nat) (i : Int) : Nat :=
  if i < 0 then ((len : Int) + i).toNat else min i.toNat len

/-- Python `l[i:j]` on a list of characters. -/
def pySlice (l : List Char) (i j : Int) : List Char :=
  (l.drop (pyIdx l.length i)).take (pyIdx l.length j - pyIdx l.length i)

/-- Python `l[:i]`. -/
def pyTake (l : List Char) (i : Int) : List Char :=
  l.take (pyIdx l.length i)

/-- Slice with natural-number endpoints, `(l.drop a).take (b - a)`. -/
def sliceN (l : List Char) (a b : Nat) : List Char :=
  (l.drop a).take (b - a)

/-- Remove trailing Python whitespace. -/
def rstripWs (l : List Char) : List Char :=
  (l.reverse.dropWhile isPyWs).reverse

/-- Python `str.strip()`: drop whitespace from both ends. -/
def pyStrip (l : List Char) : List Char :=
  rstripWs (l.dropWhile isPyWs)

/-- Number of (possibly overlapping) occurrences of `pat` in `l`. -/
def countOcc (pat l : List Char) : Nat :=
  ((List.range (l.length + 1)).filter (fun i => pat.isPrefixOf (l.drop i))).length

/-- Split a string at every occurrence of the escape character; the
separators are dropped, so a well-formed render splits into the plain
prefix followed by the marker-tail segments. -/
def splitEsc : List Char → List (List Char)
  | [] => [[]]
  | c :: cs =>
    match splitEsc cs with
    | [] => [[]]
    | s :: ss => if c = esc then [] :: s :: ss else (c :: s) :: ss

/-- Interpret one escape-initiated segment when erasing markers: marker
tails disappear (keeping the highlighted text), anything else keeps its
escape character. -/
def stripSeg (g : List Char) : List Char :=
  if opTag1.isPrefixOf g then g.drop 4
  else if opTag2.isPrefixOf g then g.drop 4
  else if clTag.isPrefixOf g then g.drop 3
  else esc :: g

/-- Erase all highlight markers from a rendered string. -/
def stripMarks (l : List Char) : List Char :=
  match splitEsc l with
  | [] => []
  | pre :: gs => pre ++ (gs.map stripSeg).flatten

/-- Parse the escape-segments of a rendered string as a sequence of
well-formed highlight groups, returning the highlighted substrings;
`none` when some marker is damaged, nested or unterminated. -/
def readGroups : List (List Char) → Option (List (List Char))
  | [] => some []
  | a :: b :: c :: rest =>
    if a = opTag1 ∧ opTag2.isPrefixOf b ∧ clTag.isPrefixOf c then
      (readGroups rest).map (fun ms => b.drop 4 :: ms)
    else none
  | _ => none

/-- The list of exactly-highlighted substrings of a rendered string, or
`none` if the markers are not intact. -/
def highlights (l : List Char) : Option (List (List Char)) :=
  match splitEsc l with
  | [] => none
  | _ :: gs => readGroups gs

/-- A string free of the escape character (no marker bytes of its own). -/
def escFree (l : List Char) : Bool := l.all (fun c => c ≠ esc)

/-- Line-break characters of Python `unicode.splitlines`. -/
def isLineBreak (c : Char) : Bool :=
  c = '\n' || c = '\r' || c = '\x0b' || c = '\x0c' || c = '\x1c' ||
  c = '\x1d' || c = '\x1e' || c = '\x85' || c.toNat = 0x2028 || c.toNat = 0x2029

/-- Worker for `splitlines`: `acc` holds the current line reversed; a
`\r\n` pair counts as one break; `fuel` bounds the number of characters
still to scan. -/
def splitlinesGo : Nat → List Char → List Char → List (List Char)
  | _, acc, [] => if acc.isEmpty then [] else [acc.reverse]
  | 0, _, _ :: _ => []
  | fuel + 1, acc, c :: rest =>
    if c = '\r' ∧ rest.head? = some '\n' then acc.reverse :: splitlinesGo fuel [] rest.tail
    else if isLineBreak c then acc.reverse :: splitlinesGo fuel [] rest
    else splitlinesGo fuel (c :: acc) rest

/-- Python `text.splitlines()`. -/
def splitlines (text : List Char) : List (List Char) :=
  splitlinesGo text.length [] text

/-- One token of the embedded regex fragment: a literal character or `.`. -/
inductive Tok where
  | lit (c : Char)
  | dot
deriving DecidableEq

/-- Regex flags: `re.DOTALL` and `re.IGNORECASE`. -/
structure ReFlags where
  dotall : Bool
  icase : Bool
deriving DecidableEq

/-- Character comparison under optional `IGNORECASE`. -/
def charEqCI (ign : Bool) (a b : Char) : Bool :=
  if ign then a.toLower = b.toLower else a = b

/-- Whether one token matches one character under the given flags:
`.` matches any character except a newline unless `DOTALL` is set. -/
def tokMatch (f : ReFlags) : Tok → Char → Bool
  | .lit c, ch => charEqCI f.icase c ch
  | .dot, ch => f.dotall || ch ≠ '\n'

/-- Match the token list against a prefix of `cs`, returning the number of
characters consumed. -/
def matchTokens (f : ReFlags) : List Tok → List Char → Option Nat
  | [], _ => some 0
  | _ :: _, [] => none
  | t :: ts, c :: cs =>
    if tokMatch f t c then (matchTokens f ts cs).map (· + 1) else none

/-- Worker for `finditer`: scan left to right from position `pos`, emitting
non-overlapping spans and advancing past each match (after a zero-width
match, advance one character), as Python 2.7 `re.finditer` does.  `fuel`
is an upper bound on the number of scan steps. -/
def finditerGo (p : List Tok) (f : ReFlags) :
    Nat → Nat → List Char → List (Nat × Nat)
  | 0, _, _ => []
  | fuel + 1, pos, rest =>
    match matchTokens f p rest with
    | none =>
      match rest with
      | [] => []
      | _ :: cs => finditerGo p f fuel (pos + 1) cs
    | some 0 =>
      match rest with
      | [] => [(pos, pos)]
      | _ :: cs => (pos, pos) :: finditerGo p f fuel (pos + 1) cs
    | some (n + 1) => (pos, pos + (n + 1)) :: finditerGo p f fuel (pos + (n + 1)) (rest.drop (n + 1))

/-- `[m.span() for m in re.finditer(pattern, text)]` for the fragment. -/
def finditer (p : List Tok) (f : ReFlags) (text : List Char) : List (Nat × Nat) :=
  finditerGo p f (text.length + 1) 0 text

/-- Result of compiling a pattern string: a fragment pattern, a Python
compile-time error, or a construct outside the embedded fragment. -/
inductive CompRes where
  | pat (p : List Tok)
  | bad (msg : String)
  | outside
deriving DecidableEq

/-- Prepend a token to a successful compilation. -/
def consRes (t : Tok) : CompRes → CompRes
  | .pat p => .pat (t :: p)
  | .bad m => .bad m
  | .outside => .outside

/-- Metacharacters whose Python meaning is outside the fragment. -/
def isMetaChar (c : Char) : Bool :=
  c = '(' || c = '[' || c = ']' || c = '{' || c = '}' || c = '*' ||
  c = '+' || c = '?' || c = '|' || c = '^' || c = '$'

/-- Python message for a trailing backslash in a pattern. -/
def badEscMsg : String := "bogus escape"

/-- Python message for an unmatched closing parenthesis. -/
def unbalMsg : String := "unbalanced parenthesis"

/-- Compile a pattern string, faithful to Python `re.compile` on the
fragment: literal characters, escaped punctuation and `.` compile; a
trailing backslash or a `)` not preceded by any `(` is a compile error in
Python and is reported as `bad`; everything else is `outside`. -/
def compileGo : List Char → CompRes
  | [] => .pat []
  | '\\' :: [] => .bad badEscMsg
  | '\\' :: c :: rest =>
    if c.isAlphanum then .outside else consRes (.lit c) (compileGo rest)
  | '.' :: rest => consRes .dot (compileGo rest)
  | ')' :: _ => .bad unbalMsg
  | c :: rest =>
    if isMetaChar c then .outside else consRes (.lit c) (compileGo rest)

/-- Compile the user-supplied pattern string. -/
def compileFrag (pat : String) : CompRes := compileGo pat.toList

/-- The locator of `get_value_all` (line 202-205): whole text, `re.DOTALL`,
plus `re.IGNORECASE` when ignore-case is set. -/
def locate_all (p : List Tok) (ign : Bool) (text : List Char) : List (Nat × Nat) :=
  finditer p ⟨true, ign⟩ text

/-- The locator of `get_value_surrounded` (line 230-235): whole text, no
`DOTALL`, plus `IGNORECASE` when ignore-case is set. -/
def locate_surrounded (p : List Tok) (ign : Bool) (text : List Char) : List (Nat × Nat) :=
  finditer p ⟨false, ign⟩ text

/-- The per-line locator of `get_value_line` (line 217-220). -/
def locate_line (p : List Tok) (ign : Bool) (line : List Char) : List (Nat × Nat) :=
  finditer p ⟨false, ign⟩ line

/-- The span walk shared by `get_value_all` (lines 206-212) and the body of
`get_value_line` (lines 221-226): copy the gap before each span, wrap the
matched substring in the colour markers, then append the tail and a
blank-line separator. -/
def highlightWalkGo (text : List Char) (value : List Char) (eop : Nat) :
    List (Nat × Nat) → List Char
  | [] => value ++ text.drop eop ++ ['\n', '\n']
  | (s, e) :: rest =>
    highlightWalkGo text (value ++ sliceN text eop s ++ colored (sliceN text s e)) e rest

/-- `Command.get_value_all` applied to a compiled pattern. -/
def get_value_all (p : List Tok) (ign : Bool) (text : List Char) : List Char :=
  highlightWalkGo text [] 0 (locate_all p ign text)

/-- All-mode rendering of a given span list (lines 206-212). -/
def renderAll (text : List Char) (spans : List (Nat × Nat)) : List Char :=
  highlightWalkGo text [] 0 spans

/-- Worker for `get_value_line`: accumulate the rendering of each line that
has at least one match; lines without matches contribute nothing. -/
def lineGo (p : List Tok) (ign : Bool) (value : List Char) :
    List (List Char) → List Char
  | [] => value
  | line :: rest =>
    lineGo p ign
      (if locate_line p ign line = [] then value
       else value ++ highlightWalkGo line [] 0 (locate_line p ign line)) rest

/-- `Command.get_value_line` (lines 214-227). -/
def get_value_line (p : List Tok) (ign : Bool) (text : List Char) : List Char :=
  lineGo p ign [] (splitlines text)

/-- Worker for `get_value_surrounded` (lines 236-248), translated branch by
branch; `w` is the context width (`chars`), `eop` is `end_of_previous`.
Python slicing semantics, including negative-index wrap-around in
`text[start - chars:start]` and `value[:start - end_of_previous]`, are kept
via `pySlice`/`pyTake`. -/
def renderSurroundedGo (text : List Char) (w : Int) (value : List Char) (eop : Int) :
    List (Nat × Nat) → List Char
  | [] => pyStrip value ++ ['\n', '\n']
  | (s, e) :: rest =>
    renderSurroundedGo text w
      ((if eop ≠ 0 ∧ eop > (s : Int) then pyTake value ((s : Int) - eop)
        else if eop ≠ 0 ∧ eop > (s : Int) - w then value ++ pySlice text eop s
        else value ++ '\n' :: pySlice text ((s : Int) - w) s)
        ++ colored (pySlice text s e) ++ pySlice text e ((e : Int) + w))
      ((e : Int) + w) rest

/-- `Command.get_value_surrounded` applied to a compiled pattern. -/
def get_value_surrounded (p : List Tok) (ign : Bool) (w : Int) (text : List Char) : List Char :=
  renderSurroundedGo text w [] 0 (locate_surrounded p ign text)

/-- Context-mode rendering of a given span list (lines 236-248). -/
def renderSurrounded (text : List Char) (w : Int) (spans : List (Nat × Nat)) : List Char :=
  renderSurroundedGo text w [] 0 spans

/-- Digits-only value of a character list. -/
def digitsVal (l : List Char) : Nat :=
  l.foldl (fun n c => n * 10 + (c.toNat - '0'.toNat)) 0

/-- Parse a non-empty all-digit character list. -/
def parseDigits (l : List Char) : Option Nat :=
  if l ≠ [] ∧ l.all Char.isDigit then some (digitsVal l) else none

/-- Sign-and-digits part of Python `int(...)`. -/
def pyIntChars : List Char → Option Int
  | '+' :: ds => (parseDigits ds).map Int.ofNat
  | '-' :: ds => (parseDigits ds).map (fun n => -(n : Int))
  | ds => (parseDigits ds).map Int.ofNat

/-- Python 2.7 `int(arg)` on a string: strip whitespace, optional sign,
then a non-empty run of decimal digits; anything else raises `ValueError`
(modelled as `none`). -/
def pyInt (s : String) : Option Int :=
  pyIntChars (pyStrip s.toList)

/-- The value returned by `show_values_style`: the literal strings `'a'`
and `'l'`, or an integer context width. -/
inductive SVStyle where
  | a
  | l
  | num (n : Int)
deriving DecidableEq

/-- The `argparse.ArgumentTypeError` message of `show_values_style`. -/
def svErrMsg : String := "Show values style must be one of a, l or an integer"

/-- `show_values_style` (lines 13-21): accept `'a'` and `'l'` verbatim,
otherwise try Python `int(arg)`, and fail with the argparse error when
that raises. -/
def show_values_style (arg : String) : Except String SVStyle :=
  if arg = "a" then .ok .a
  else if arg = "l" then .ok .l
  else
    match pyInt arg with
    | some n => .ok (.num n)
    | none => .error svErrMsg

/-- The raw default of the `--show-values` argument (line 30). -/
def show_values_default : String := "l"

/-- Full All-mode pipeline from the pattern string: compile, then locate
and render; a Python compile error surfaces as `Except.error` and a
pattern outside the fragment as `none`. -/
def run_all (pat : String) (ign : Bool) (text : List Char) :
    Option (Except String (List Char)) :=
  match compileFrag pat with
  | .pat p => some (.ok (get_value_all p ign text))
  | .bad m => some (.error m)
  | .outside => none

/-- Full Line-mode pipeline from the pattern string. -/
def run_line (pat : String) (ign : Bool) (text : List Char) :
    Option (Except String (List Char)) :=
  match compileFrag pat with
  | .pat p => some (.ok (get_value_line p ign text))
  | .bad m => some (.error m)
  | .outside => none

/-- Full Context-mode pipeline from the pattern string. -/
def run_surrounded (pat : String) (ign : Bool) (w : Int) (text : List Char) :
    Option (Except String (List Char)) :=
  match compileFrag pat with
  | .pat p => some (.ok (get_value_surrounded p ign w text))
  | .bad m => some (.error m)
  | .outside => none

/-- Spans are ordered and non-overlapping, starting at or after `lo`. -/
def spansChain (lo : Nat) : List (Nat × Nat) → Bool
  | [] => true
  | (s, e) :: rest => decide (lo ≤ s) && decide (s ≤ e) && spansChain e rest

/-- Every span ends within the text. -/
def spansBounded (len : Nat) (spans : List (Nat × Nat)) : Bool :=
  spans.all (fun q => q.2 ≤ len)

/-- The span-list invariant guaranteed by the locator. -/
def spansOK (len : Nat) (spans : List (Nat × Nat)) : Bool :=
  spansChain 0 spans && spansBounded len spans

/-- Every span except the final one has its trailing context window inside
the text: `end + w ≤ len`. -/
def innerEndsOK (len w : Nat) : List (Nat × Nat) → Bool
  | [] => true
  | [_] => true
  | (_, e) :: rest => decide (e + w ≤ len) && innerEndsOK len w rest

/-- A fragment pattern with no `.` token. -/
def dotFree (p : List Tok) : Bool := p.all (fun t => t ≠ .dot)

/-- The leading-context block opener of Context mode: a newline then up to
`w` characters before the span start (Python slice semantics). -/
def ctxPre (text : List Char) (w : Nat) (s : Nat) : List Char :=
  '\n' :: pySlice text ((s : Int) - w) s

/-- Reference form of the Context-mode body: each span is wrapped exactly;
consecutive spans closer than `2*w` are joined by the between-region
`text[pe:s]` exactly once; distant spans are joined by the previous
trailing context followed by a fresh block opener; the final span is
followed by its trailing context. -/
def refCtxGo (text : List Char) (w : Nat) : Option Nat → List (Nat × Nat) → List Char
  | none, [] => []
  | none, (s, e) :: rest =>
    ctxPre text w s ++ colored (sliceN text s e) ++ refCtxGo text w (some e) rest
  | some pe, [] => sliceN text pe (pe + w)
  | some pe, (s, e) :: rest =>
    (if s < pe + 2 * w then sliceN text pe s
     else sliceN text pe (pe + w) ++ ctxPre text w s)
      ++ colored (sliceN text s e) ++ refCtxGo text w (some e) rest

/-- Reference form of the full Context-mode rendering. -/
def refCtx (text : List Char) (w : Nat) (spans : List (Nat × Nat)) : List Char :=
  pyStrip (refCtxGo text w none spans) ++ ['\n', '\n']

/-- End offset of the last span of a non-empty span list. -/
def lastEnd : (Nat × Nat) → List (Nat × Nat) → Nat
  | q, [] => q.2
  | _, q :: rest => lastEnd q rest

/-- The marker-framed middle of the Context-mode body: the first wrapped
span through the last closing marker, with the joining material between
consecutive spans in between. -/
def ctxMid (text : List Char) (w : Nat) : (Nat × Nat) → List (Nat × Nat) → List Char
  | (s, e), [] => colored (sliceN text s e)
  | (s, e), (s2, e2) :: rest =>
    colored (sliceN text s e)
      ++ (if s2 < e + 2 * w then sliceN text e s2
          else sliceN text e (e + w) ++ ctxPre text w s2)
      ++ ctxMid text w (s2, e2) rest

/-- The highlighted substrings selected by a span list. -/
def spanSlices (text : List Char) (spans : List (Nat × Nat)) : List (List Char) :=
  spans.map (fun q => sliceN text q.1 q.2)

/-- Reading of the spec phrase: a string parseable as a non-negative
integer, i.e. a non-empty run of decimal digits. -/
def specNonNegInt (s : String) : Option Nat :=
  parseDigits s.toList

/-! ### Basic lemmas about Python slicing -/

theorem pyIdx_natCast (len a : Nat) : pyIdx len (a : Int) = min a len := by
  unfold pyIdx
  have h : ¬ ((a : Int) < 0) := by omega
  rw [if_neg h, Int.toNat_natCast]

theorem pySlice_natCast (l : List Char) (a b : Nat) :
    pySlice l (a : Int) (b : Int) = sliceN l a b := by
  unfold pySlice sliceN
  rw [pyIdx_natCast, pyIdx_natCast]
  rcases le_or_lt l.length a with ha | ha
  · rw [min_eq_right ha, List.drop_of_length_le ha, List.drop_of_length_le le_rfl]
    simp
  · rw [min_eq_left ha.le]
    rcases le_or_lt b l.length with hb | hb
    · rw [min_eq_left hb]
    · rw [min_eq_right hb.le]
      rw [List.take_of_length_le (by simp), List.take_of_length_le (by simp; omega)]

theorem sliceN_length (l : List Char) (a b : Nat) (hab : a ≤ b) (hb : b ≤ l.length) :
    (sliceN l a b).length = b - a := by
  unfold sliceN
  simp
  omega

theorem sliceN_append (l : List Char) (a b c : Nat) (hab : a ≤ b) (hbc : b ≤ c) :
    sliceN l a c = sliceN l a b ++ sliceN l b c := by
  unfold sliceN
  have h1 : c - a = (b - a) + (c - b) := by omega
  have h2 : a + (b - a) = b := by omega
  rw [h1, List.take_add, List.drop_drop, h2]

theorem drop_eq_sliceN_append (l : List Char) (a b : Nat) (hab : a ≤ b) :
    l.drop a = sliceN l a b ++ l.drop b := by
  unfold sliceN
  have h2 : a + (b - a) = b := by omega
  conv_lhs => rw [← List.take_append_drop (b - a) (l.drop a)]
  rw [List.drop_drop, h2]

theorem sliceN_take (l : List Char) (a b m : Nat) (h : m ≤ b - a) :
    (sliceN l a b).take m = sliceN l a (a + m) := by
  unfold sliceN
  rw [List.take_take, min_eq_left h]
  congr 1
  omega

theorem pyTake_neg (v t : List Char) (k : Nat) (h1 : 1 ≤ k) (h2 : k ≤ t.length) :
    pyTake (v ++ t) (-(k : Int)) = v ++ t.take (t.length - k) := by
  unfold pyTake pyIdx
  have hneg : (-(k : Int)) < 0 := by omega
  simp only [hneg, if_true, List.length_append]
  have : ((v.length + t.length : Nat) : Int) + -(k : Int) = ((v.length + (t.length - k) : Nat) : Int) := by
    push_cast
    omega
  rw [this, Int.toNat_ofNat]
  rw [List.take_append]

/-! ### Lemmas about escape-free strings -/

theorem escFree_iff (l : List Char) : escFree l = true ↔ ∀ c ∈ l, c ≠ esc := by
  unfold escFree
  rw [List.all_eq_true]
  simp

theorem escFree_append (a b : List Char) :
    escFree (a ++ b) = (escFree a && escFree b) := by
  unfold escFree
  exact List.all_append

theorem escFree_take (l : List Char) (n : Nat) (h : escFree l = true) :
    escFree (l.take n) = true := by
  rw [escFree_iff] at *
  exact fun c hc => h c (List.mem_of_mem_take hc)

theorem escFree_drop (l : List Char) (n : Nat) (h : escFree l = true) :
    escFree (l.drop n) = true := by
  rw [escFree_iff] at *
  exact fun c hc => h c (List.mem_of_mem_drop hc)

theorem escFree_sliceN (l : List Char) (a b : Nat) (h : escFree l = true) :
    escFree (sliceN l a b) = true := by
  exact escFree_take _ _ (escFree_drop _ _ h)

theorem escFree_pySlice (l : List Char) (i j : Int) (h : escFree l = true) :
    escFree (pySlice l i j) = true := by
  exact escFree_take _ _ (escFree_drop _ _ h)

theorem escFree_reverse (l : List Char) (h : escFree l = true) :
    escFree l.reverse = true := by
  rw [escFree_iff] at *
  intro c hc
  exact h c (List.mem_reverse.mp hc)

theorem escFree_dropWhile (p : Char → Bool) (l : List Char) (h : escFree l = true) :
    escFree (l.dropWhile p) = true := by
  rw [escFree_iff] at *
  exact fun c hc => h c ((List.dropWhile_sublist p).subset hc)

theorem escFree_rstripWs (l : List Char) (h : escFree l = true) :
    escFree (rstripWs l) = true := by
  exact escFree_reverse _ (escFree_dropWhile _ _ (escFree_reverse _ h))

theorem escFree_pyStrip (l : List Char) (h : escFree l = true) :
    escFree (pyStrip l) = true := by
  exact escFree_rstripWs _ (escFree_dropWhile _ _ h)

/-! ### Lemmas about splitting at escapes -/

theorem splitEsc_ne_nil (l : List Char) : splitEsc l ≠ [] := by
  cases l with
  | nil => simp [splitEsc]
  | cons c cs =>
    unfold splitEsc
    cases splitEsc cs with
    | nil => simp
    | cons s ss =>
      by_cases hc : c = esc <;> simp [hc]

theorem splitEsc_esc_cons (l : List Char) : splitEsc (esc :: l) = [] :: splitEsc l := by
  cases h : splitEsc l with
  | nil => exact absurd h (splitEsc_ne_nil l)
  | cons s ss =>
    unfold splitEsc
    rw [h]
    simp

theorem splitEsc_cons_ne (c : Char) (cs : List Char) (hc : c ≠ esc) :
    splitEsc (c :: cs) = (c :: (splitEsc cs).headI) :: (splitEsc cs).tail := by
  cases h : splitEsc cs with
  | nil => exact absurd h (splitEsc_ne_nil cs)
  | cons s ss =>
    unfold splitEsc
    rw [h]
    simp [hc]

theorem splitEsc_append_escFree (a l : List Char) (h : escFree a = true) :
    splitEsc (a ++ l) = (a ++ (splitEsc l).headI) :: (splitEsc l).tail := by
  induction a with
  | nil =>
    cases hsp : splitEsc l with
    | nil => exact absurd hsp (splitEsc_ne_nil l)
    | cons s ss => simp [hsp]
  | cons c a ih =>
    rw [escFree_iff] at h
    have hc : c ≠ esc := h c (List.mem_cons_self c a)
    have ha : escFree a = true := by
      rw [escFree_iff]
      exact fun x hx => h x (List.mem_cons_of_mem c hx)
    rw [List.cons_append, splitEsc_cons_ne c (a ++ l) hc, ih ha]
    simp

/-! ### Lemmas about erasing and parsing markers -/

theorem stripMarks_escFree (l : List Char) (h : escFree l = true) :
    stripMarks l = l := by
  unfold stripMarks
  have := splitEsc_append_escFree l [] h
  simp only [List.append_nil] at this
  rw [this]
  simp [splitEsc]

theorem stripMarks_prepend (a l : List Char) (h : escFree a = true) :
    stripMarks (a ++ l) = a ++ stripMarks l := by
  unfold stripMarks
  rw [splitEsc_append_escFree a l h]
  cases hsp : splitEsc l with
  | nil => exact absurd hsp (splitEsc_ne_nil l)
  | cons s ss => simp

theorem splitEsc_colored (m rest : List Char) (hm : escFree m = true) :
    splitEsc (colored m ++ rest) =
      [] :: opTag1 :: (opTag2 ++ m) :: ((clTag ++ (splitEsc rest).headI) :: (splitEsc rest).tail) := by
  have h1 : colored m ++ rest = esc :: (opTag1 ++ (esc :: (opTag2 ++ (m ++ (esc :: (clTag ++ rest)))))) := by
    unfold colored hlOpen hlClose
    simp
  rw [h1, splitEsc_esc_cons]
  rw [splitEsc_append_escFree opTag1 _ (by decide), splitEsc_esc_cons]
  rw [show opTag2 ++ (m ++ (esc :: (clTag ++ rest))) = (opTag2 ++ m) ++ (esc :: (clTag ++ rest)) by simp]
  rw [splitEsc_append_escFree (opTag2 ++ m) _ (by rw [escFree_append, Bool.and_eq_true]; exact ⟨by decide, hm⟩)]
  rw [splitEsc_esc_cons]
  rw [splitEsc_append_escFree clTag rest (by decide)]
  simp

theorem stripMarks_colored (m rest : List Char) (hm : escFree m = true) :
    stripMarks (colored m ++ rest) = m ++ stripMarks rest := by
  unfold stripMarks
  rw [splitEsc_colored m rest hm]
  cases hsp : splitEsc rest with
  | nil => exact absurd hsp (splitEsc_ne_nil rest)
  | cons s ss =>
    simp only [List.headI, List.tail, List.map, List.flatten]
    have e1 : stripSeg opTag1 = [] := by decide
    have e2 : stripSeg (opTag2 ++ m) = m := by
      unfold stripSeg
      have h1 : opTag1.isPrefixOf (opTag2 ++ m) = false := by
        unfold opTag1 opTag2
        simp [List.isPrefixOf]
      have h2 : opTag2.isPrefixOf (opTag2 ++ m) = true := by
        rw [ List.isPrefixOf_iff_prefix]
        exact List.prefix_append opTag2 m
      rw [h1]
      simp only [Bool.false_eq_true, if_false]
      rw [h2]
      simp only [if_true]
      exact List.drop_left opTag2 m
    have e3 : stripSeg (clTag ++ s) = s := by
      unfold stripSeg
      have h1 : opTag1.isPrefixOf (clTag ++ s) = false := by
        unfold opTag1 clTag
        simp [List.isPrefixOf]
      have h2 : opTag2.isPrefixOf (clTag ++ s) = false := by
        unfold opTag2 clTag
        simp [List.isPrefixOf]
      have h3 : clTag.isPrefixOf (clTag ++ s) = true := by
        rw [ List.isPrefixOf_iff_prefix]
        exact List.prefix_append clTag s
      rw [h1]
      simp only [Bool.false_eq_true, if_false]
      rw [h2]
      simp only [Bool.false_eq_true, if_false]
      rw [h3]
      simp only [if_true]
      exact List.drop_left clTag s
    rw [e1, e2, e3]
    simp

theorem highlights_escFree (l : List Char) (h : escFree l = true) :
    highlights l = some [] := by
  unfold highlights
  have := splitEsc_append_escFree l [] h
  simp only [List.append_nil] at this
  rw [this]
  simp [splitEsc, readGroups]

theorem highlights_prepend (a l : List Char) (h : escFree a = true) :
    highlights (a ++ l) = highlights l := by
  unfold highlights
  rw [splitEsc_append_escFree a l h]
  cases hsp : splitEsc l with
  | nil => exact absurd hsp (splitEsc_ne_nil l)
  | cons s ss => simp

theorem highlights_colored (m rest : List Char) (hm : escFree m = true) :
    highlights (colored m ++ rest) = (highlights rest).map (fun ms => m :: ms) := by
  unfold highlights
  rw [splitEsc_colored m rest hm]
  cases hsp : splitEsc rest with
  | nil => exact absurd hsp (splitEsc_ne_nil rest)
  | cons s ss =>
    simp only [List.headI, List.tail]
    simp only [readGroups]
    have h2 : opTag2.isPrefixOf (opTag2 ++ m) = true := by
      rw [ List.isPrefixOf_iff_prefix]
      exact List.prefix_append opTag2 m
    have h3 : clTag.isPrefixOf (clTag ++ s) = true := by
      rw [ List.isPrefixOf_iff_prefix]
      exact List.prefix_append clTag s
    have h4 : (opTag2 ++ m).drop 4 = m := List.drop_left opTag2 m
    simp [h2, h3, h4]

/-! ### Lemmas about the span-walk renderer -/

theorem spansChain_cons (lo s e : Nat) (rest : List (Nat × Nat)) :
    spansChain lo ((s, e) :: rest) = true ↔ lo ≤ s ∧ s ≤ e ∧ spansChain e rest = true := by
  simp [spansChain, and_assoc]

theorem spansBounded_cons (len s e : Nat) (rest : List (Nat × Nat)) :
    spansBounded len ((s, e) :: rest) = true ↔ e ≤ len ∧ spansBounded len rest = true := by
  simp [spansBounded]

theorem highlightWalkGo_acc (text : List Char) (spans : List (Nat × Nat)) :
    ∀ v eop, highlightWalkGo text v eop spans = v ++ highlightWalkGo text [] eop spans := by
  induction spans with
  | nil => intro v eop; simp [highlightWalkGo]
  | cons q rest ih =>
    obtain ⟨s, e⟩ := q
    intro v eop
    simp only [highlightWalkGo]
    rw [ih, ih ([] ++ sliceN text eop s ++ colored (sliceN text s e))]
    simp

theorem escFree_sep : escFree ['\n', '\n'] = true := by decide

theorem stripMarks_walk (text : List Char) (spans : List (Nat × Nat)) :
    ∀ eop, spansChain eop spans = true → spansBounded text.length spans = true →
    escFree text = true →
    stripMarks (highlightWalkGo text [] eop spans) = text.drop eop ++ ['\n', '\n'] := by
  induction spans with
  | nil =>
    intro eop _ _ hf
    simp only [highlightWalkGo, List.nil_append]
    apply stripMarks_escFree
    rw [escFree_append, Bool.and_eq_true]
    exact ⟨escFree_drop _ _ hf, escFree_sep⟩
  | cons q rest ih =>
    obtain ⟨s, e⟩ := q
    intro eop hc hb hf
    rw [spansChain_cons] at hc
    obtain ⟨h1, h2, h3⟩ := hc
    rw [spansBounded_cons] at hb
    obtain ⟨he, hb2⟩ := hb
    simp only [highlightWalkGo, List.nil_append]
    rw [highlightWalkGo_acc, List.append_assoc]
    rw [stripMarks_prepend _ _ (escFree_sliceN text eop s hf)]
    rw [stripMarks_colored _ _ (escFree_sliceN text s e hf)]
    rw [ih e h3 hb2 hf]
    rw [← List.append_assoc, ← List.append_assoc]
    rw [← sliceN_append text eop s e h1 h2]
    rw [← drop_eq_sliceN_append text eop e (le_trans h1 h2)]

theorem spanSlices_cons (text : List Char) (s e : Nat) (rest : List (Nat × Nat)) :
    spanSlices text ((s, e) :: rest) = sliceN text s e :: spanSlices text rest := rfl

theorem highlights_walk (text : List Char) (spans : List (Nat × Nat)) :
    ∀ eop (t : List Char), spansChain eop spans = true →
    spansBounded text.length spans = true → escFree text = true →
    highlights (highlightWalkGo text [] eop spans ++ t) =
      (highlights t).map (fun r => spanSlices text spans ++ r) := by
  induction spans with
  | nil =>
    intro eop t _ _ hf
    simp only [highlightWalkGo, List.nil_append, List.append_assoc]
    rw [highlights_prepend _ _ (escFree_drop _ _ hf)]
    rw [highlights_prepend _ _ escFree_sep]
    cases highlights t <;> simp [spanSlices]
  | cons q rest ih =>
    obtain ⟨s, e⟩ := q
    intro eop t hc hb hf
    rw [spansChain_cons] at hc
    obtain ⟨h1, h2, h3⟩ := hc
    rw [spansBounded_cons] at hb
    obtain ⟨he, hb2⟩ := hb
    simp only [highlightWalkGo, List.nil_append]
    rw [highlightWalkGo_acc, List.append_assoc, List.append_assoc]
    rw [highlights_prepend _ _ (escFree_sliceN text eop s hf)]
    rw [highlights_colored _ _ (escFree_sliceN text s e hf)]
    rw [ih e t h3 hb2 hf]
    rw [spanSlices_cons]
    cases highlights t <;> simp

/-! ### Soundness of the locator -/

theorem matchTokens_le (f : ReFlags) (p : List Tok) :
    ∀ cs n, matchTokens f p cs = some n → n ≤ cs.length := by
  induction p with
  | nil =>
    intro cs n h
    simp [matchTokens] at h
    omega
  | cons t ts ih =>
    intro cs n h
    cases cs with
    | nil => simp [matchTokens] at h
    | cons c cs2 =>
      simp only [matchTokens] at h
      by_cases htm : tokMatch f t c
      · rw [if_pos htm] at h
        cases hmt : matchTokens f ts cs2 with
        | none => rw [hmt] at h; simp at h
        | some m =>
          rw [hmt] at h
          simp at h
          have := ih cs2 m hmt
          simp [List.length_cons]
          omega
      · rw [if_neg htm] at h
        simp at h

theorem spansChain_mono (lo lo2 : Nat) (spans : List (Nat × Nat)) (h : lo2 ≤ lo)
    (hc : spansChain lo spans = true) : spansChain lo2 spans = true := by
  cases spans with
  | nil => simp [spansChain]
  | cons q rest =>
    obtain ⟨s, e⟩ := q
    rw [spansChain_cons] at *
    exact ⟨le_trans h hc.1, hc.2.1, hc.2.2⟩

theorem spansBounded_mono (len len2 : Nat) (spans : List (Nat × Nat)) (h : len ≤ len2)
    (hb : spansBounded len spans = true) : spansBounded len2 spans = true := by
  unfold spansBounded at *
  rw [List.all_eq_true] at *
  intro q hq
  have := hb q hq
  simp at this ⊢
  omega

theorem finditerGo_sound (p : List Tok) (f : ReFlags) :
    ∀ fuel pos rest, spansChain pos (finditerGo p f fuel pos rest) = true ∧
      spansBounded (pos + rest.length) (finditerGo p f fuel pos rest) = true := by
  intro fuel
  induction fuel with
  | zero => intro pos rest; simp [finditerGo, spansChain, spansBounded]
  | succ fuel ih =>
    intro pos rest
    simp only [finditerGo]
    cases hmt : matchTokens f p rest with
    | none =>
      cases rest with
      | nil => simp [spansChain, spansBounded]
      | cons c cs =>
        have h2 := ih (pos + 1) cs
        constructor
        · exact spansChain_mono _ _ _ (by omega) h2.1
        · have harr : pos + (c :: cs).length = (pos + 1) + cs.length := by
            simp [List.length_cons]
            omega
          rw [harr]
          exact h2.2
    | some n =>
      cases n with
      | zero =>
        cases rest with
        | nil =>
          simp [spansChain, spansBounded]
        | cons c cs =>
          have h2 := ih (pos + 1) cs
          constructor
          · rw [spansChain_cons]
            exact ⟨le_rfl, le_rfl, spansChain_mono _ _ _ (by omega) h2.1⟩
          · rw [spansBounded_cons]
            constructor
            · omega
            · have harr : pos + (c :: cs).length = (pos + 1) + cs.length := by
                simp [List.length_cons]
                omega
              rw [harr]
              exact h2.2
      | succ m =>
        have hlen : m + 1 ≤ rest.length := matchTokens_le f p rest (m + 1) hmt
        have h2 := ih (pos + (m + 1)) (rest.drop (m + 1))
        constructor
        · rw [spansChain_cons]
          exact ⟨le_rfl, by omega, h2.1⟩
        · rw [spansBounded_cons]
          constructor
          · omega
          · have harr : (pos + (m + 1)) + (rest.drop (m + 1)).length = pos + rest.length := by
              simp [List.length_drop]
              omega
            rw [harr] at h2
            exact h2.2

theorem finditer_spansOK (p : List Tok) (f : ReFlags) (text : List Char) :
    spansOK text.length (finditer p f text) = true := by
  unfold spansOK finditer
  rw [Bool.and_eq_true]
  have h := finditerGo_sound p f (text.length + 1) 0 text
  exact ⟨h.1, by simpa using h.2⟩


/-! ### Lemmas about splitlines -/

theorem splitlinesGo_chars :
    ∀ (fuel : Nat) (acc rest : List Char), ∀ line ∈ splitlinesGo fuel acc rest, ∀ c ∈ line,
      c ∈ acc ∨ (c ∈ rest ∧ isLineBreak c = false) := by
  intro fuel
  induction fuel with
  | zero =>
    intro acc rest line hline c hc
    cases rest with
    | nil =>
      simp only [splitlinesGo] at hline
      by_cases hacc : acc.isEmpty
      · simp [hacc] at hline
      · rw [if_neg hacc] at hline
        simp at hline
        left
        rw [hline] at hc
        exact List.mem_reverse.mp hc
    | cons c0 cs => simp [splitlinesGo] at hline
  | succ fuel ih =>
    intro acc rest line hline c hc
    cases rest with
    | nil =>
      simp only [splitlinesGo] at hline
      by_cases hacc : acc.isEmpty
      · simp [hacc] at hline
      · rw [if_neg hacc] at hline
        simp at hline
        left
        rw [hline] at hc
        exact List.mem_reverse.mp hc
    | cons c0 cs =>
      simp only [splitlinesGo] at hline
      by_cases h1 : c0 = '\r' ∧ cs.head? = some '\n'
      · rw [if_pos h1] at hline
        rcases List.mem_cons.mp hline with hl | hl
        · left
          rw [hl] at hc
          exact List.mem_reverse.mp hc
        · rcases ih [] cs.tail line hl c hc with h | h
          · simp at h
          · right
            refine ⟨List.mem_cons_of_mem _ ((List.tail_sublist cs).subset h.1), h.2⟩
      · rw [if_neg h1] at hline
        by_cases h2 : isLineBreak c0
        · rw [if_pos h2] at hline
          rcases List.mem_cons.mp hline with hl | hl
          · left
            rw [hl] at hc
            exact List.mem_reverse.mp hc
          · rcases ih [] cs line hl c hc with h | h
            · simp at h
            · right
              exact ⟨List.mem_cons_of_mem _ h.1, h.2⟩
        · rw [if_neg h2] at hline
          rcases ih (c0 :: acc) cs line hline c hc with h | h
          · rcases List.mem_cons.mp h with h | h
            · right
              rw [h]
              exact ⟨List.mem_cons_self _ _, by simpa using h2⟩
            · left
              exact h
          · right
            exact ⟨List.mem_cons_of_mem _ h.1, h.2⟩

theorem splitlines_chars (text : List Char) :
    ∀ line ∈ splitlines text, ∀ c ∈ line, c ∈ text ∧ isLineBreak c = false := by
  intro line hline c hc
  rcases splitlinesGo_chars text.length [] text line hline c hc with h | h
  · simp at h
  · exact h

theorem splitlines_no_newline (text : List Char) :
    ∀ line ∈ splitlines text, '\n' ∉ line := by
  intro line hline hmem
  have := (splitlines_chars text line hline '\n' hmem).2
  simp [isLineBreak] at this

theorem escFree_of_splitlines (text : List Char) (h : escFree text = true) :
    ∀ line ∈ splitlines text, escFree line = true := by
  intro line hline
  rw [escFree_iff] at *
  intro c hc
  exact h c (splitlines_chars text line hline c hc).1

/-! ### Lemmas about the Line-mode accumulator -/

theorem lineGo_acc (p : List Tok) (ign : Bool) (lines : List (List Char)) :
    ∀ v, lineGo p ign v lines = v ++ lineGo p ign [] lines := by
  induction lines with
  | nil => intro v; simp [lineGo]
  | cons line rest ih =>
    intro v
    simp only [lineGo]
    by_cases hms : locate_line p ign line = []
    · rw [if_pos hms, if_pos hms]
      exact ih v
    · rw [if_neg hms, if_neg hms, ih, ih ([] ++ _)]
      simp

theorem lineGo_flatten (p : List Tok) (ign : Bool) (lines : List (List Char)) :
    lineGo p ign [] lines =
      (lines.map (fun line =>
        if locate_line p ign line = [] then []
        else highlightWalkGo line [] 0 (locate_line p ign line))).flatten := by
  induction lines with
  | nil => simp [lineGo]
  | cons line rest ih =>
    simp only [lineGo, List.map_cons, List.flatten_cons]
    by_cases hms : locate_line p ign line = []
    · rw [if_pos hms, if_pos hms, ih]
      simp
    · rw [if_neg hms, if_neg hms, lineGo_acc, ih]
      simp

/-! ### Flag-independence of matching for dot-free patterns -/

theorem matchTokens_dotFree (p : List Tok) (hp : dotFree p = true) (ign : Bool) :
    ∀ cs, matchTokens ⟨true, ign⟩ p cs = matchTokens ⟨false, ign⟩ p cs := by
  induction p with
  | nil => intro cs; rfl
  | cons t ts ih =>
    intro cs
    unfold dotFree at hp
    rw [List.all_eq_true] at hp
    have ht : t ≠ Tok.dot := by simpa using hp t (List.mem_cons_self t ts)
    have hts : dotFree ts = true := by
      unfold dotFree
      rw [List.all_eq_true]
      exact fun x hx => hp x (List.mem_cons_of_mem t hx)
    cases cs with
    | nil => rfl
    | cons c cs2 =>
      simp only [matchTokens]
      have htm : tokMatch ⟨true, ign⟩ t c = tokMatch ⟨false, ign⟩ t c := by
        cases t with
        | lit ch => rfl
        | dot => exact absurd rfl ht
      rw [htm, ih hts]

theorem finditerGo_congr (p : List Tok) (f1 f2 : ReFlags)
    (hm : ∀ cs, matchTokens f1 p cs = matchTokens f2 p cs) :
    ∀ fuel pos rest, finditerGo p f1 fuel pos rest = finditerGo p f2 fuel pos rest := by
  intro fuel
  induction fuel with
  | zero => intro pos rest; rfl
  | succ fuel ih =>
    intro pos rest
    simp only [finditerGo]
    rw [hm rest]
    cases matchTokens f2 p rest with
    | none => cases rest <;> simp [ih]
    | some n =>
      cases n with
      | zero => cases rest <;> simp [ih]
      | succ m => simp [ih]

/-! ### Claim theorems -/

/-- C4: in All mode, for every text and every ordered sequence of
non-overlapping spans within the text (and text containing no escape byte
of its own), the renderer copies gaps verbatim, wraps exactly the matched
substrings, and appends the trailing text, so that stripping all highlight
markers from the output recovers the input text followed by the blank-line
separator. -/
theorem all_mode_roundtrip (text : List Char) (spans : List (Nat × Nat))
    (hok : spansOK text.length spans = true) (hesc : escFree text = true) :
    stripMarks (renderAll text spans) = text ++ ['\n', '\n'] := by
  unfold renderAll
  unfold spansOK at hok
  rw [Bool.and_eq_true] at hok
  have h := stripMarks_walk text spans 0 hok.1 hok.2 hesc
  simpa using h

/-- Witness for C4 at a concrete input. -/
theorem all_mode_roundtrip_witness :
    spansOK ("hello".toList).length [(1, 3)] = true ∧ escFree "hello".toList = true ∧
    stripMarks (renderAll "hello".toList [(1, 3)]) = "hello".toList ++ ['\n', '\n'] :=
  ⟨by decide, by decide, all_mode_roundtrip "hello".toList [(1, 3)] (by decide) (by decide)⟩

/-- C5: a pattern with zero matches yields an empty span list (a valid,
non-error result) and All-mode rendering of an empty span list returns the
original text unchanged plus the two-newline trailing separator. -/
theorem zero_matches_all_mode :
    (∀ text : List Char, renderAll text [] = text ++ ['\n', '\n'])
    ∧ (∀ (pat : String) (p : List Tok) (ign : Bool) (text : List Char),
        compileFrag pat = .pat p → locate_all p ign text = [] →
        run_all pat ign text = some (.ok (text ++ ['\n', '\n']))) := by
  constructor
  · intro text
    simp [renderAll, highlightWalkGo]
  · intro pat p ign text hc hl
    unfold run_all
    rw [hc]
    simp only [get_value_all, hl, highlightWalkGo]
    simp

/-- Witness for C5 at a concrete input. -/
theorem zero_matches_all_mode_witness :
    compileFrag "x" = .pat [Tok.lit 'x'] ∧
    locate_all [Tok.lit 'x'] false "abc".toList = [] ∧
    run_all "x" false "abc".toList = some (.ok ("abc".toList ++ ['\n', '\n'])) :=
  ⟨by decide, by decide,
    zero_matches_all_mode.2 "x" [Tok.lit 'x'] false "abc".toList (by decide) (by decide)⟩

/-- C6: in Line mode the output is exactly the concatenation, over the
lines of the text, of the All-mode walk applied to each line holding at
least one match; lines without matches contribute nothing, each rendered
chunk ends with the two-newline separator, and no split line contains a
newline. -/
theorem line_mode_only_matching_lines (p : List Tok) (ign : Bool) (text : List Char) :
    get_value_line p ign text =
      ((splitlines text).map (fun line =>
        if locate_line p ign line = [] then []
        else highlightWalkGo line [] 0 (locate_line p ign line))).flatten
    ∧ ∀ line ∈ splitlines text, '\n' ∉ line :=
  ⟨lineGo_flatten p ign (splitlines text), splitlines_no_newline text⟩

/-- Witness for C6 at a concrete input. -/
theorem line_mode_only_matching_lines_witness :
    ("abc".toList ∈ splitlines "abc\nxyz".toList) ∧ '\n' ∉ "abc".toList :=
  ⟨by decide,
    (line_mode_only_matching_lines [Tok.lit 'b'] false "abc\nxyz".toList).2
      "abc".toList (by decide)⟩

/-- C8: a pattern that fails to compile makes every rendering mode fail
with that compile error, for every text (so the failure is determined
before any text is scanned) and with no partial rendered output. -/
theorem invalid_pattern_fails_before_scan (pat m : String)
    (hc : compileFrag pat = .bad m) :
    ∀ (ign : Bool) (w : Int) (text : List Char),
      run_all pat ign text = some (.error m) ∧
      run_line pat ign text = some (.error m) ∧
      run_surrounded pat ign w text = some (.error m) := by
  intro ign w text
  unfold run_all run_line run_surrounded
  rw [hc]
  exact ⟨rfl, rfl, rfl⟩

/-- Witness for C8: `)` is rejected by Python's compiler (unbalanced
parenthesis), and every mode surfaces that error on a concrete text. -/
theorem invalid_pattern_fails_before_scan_witness :
    compileFrag ")" = .bad unbalMsg ∧
    run_all ")" false "abc".toList = some (.error unbalMsg) :=
  ⟨by decide, (invalid_pattern_fails_before_scan ")" unbalMsg (by decide) false 3 "abc".toList).1⟩

/-- C10: in Context mode a text with zero matches renders as exactly the
two-newline separator — unlike All mode (which returns the whole text plus
the separator) and Line mode (which returns the empty string). -/
theorem context_mode_empty_render :
    (∀ (text : List Char) (w : Int), renderSurrounded text w [] = ['\n', '\n'])
    ∧ (∀ (p : List Tok) (ign : Bool) (w : Int) (text : List Char),
        locate_surrounded p ign text = [] →
        get_value_surrounded p ign w text = ['\n', '\n'])
    ∧ (∀ (p : List Tok) (ign : Bool) (text : List Char),
        locate_all p ign text = [] →
        get_value_all p ign text = text ++ ['\n', '\n'])
    ∧ (∀ (p : List Tok) (ign : Bool) (text : List Char),
        (∀ line ∈ splitlines text, locate_line p ign line = []) →
        get_value_line p ign text = []) := by
  refine ⟨?_, ?_, ?_, ?_⟩
  · intro text w
    simp [renderSurrounded, renderSurroundedGo, pyStrip, rstripWs]
  · intro p ign w text hl
    unfold get_value_surrounded
    rw [hl]
    simp [renderSurroundedGo, pyStrip, rstripWs]
  · intro p ign text hl
    unfold get_value_all
    rw [hl]
    simp [highlightWalkGo]
  · intro p ign text hl
    unfold get_value_line
    rw [lineGo_flatten]
    rw [List.flatten_eq_nil_iff]
    intro x hx
    rw [List.mem_map] at hx
    obtain ⟨line, hline, hfx⟩ := hx
    rw [← hfx, if_pos (hl line hline)]

/-- Witness for C10 at a concrete input: the pattern `q` matches nothing
in `abc`. -/
theorem context_mode_empty_render_witness :
    locate_surrounded [Tok.lit 'q'] false "abc".toList = [] ∧
    get_value_surrounded [Tok.lit 'q'] false 4 "abc".toList = ['\n', '\n'] :=
  ⟨by decide,
    context_mode_empty_render.2.1 [Tok.lit 'q'] false 4 "abc".toList (by decide)⟩

/-- C2 (counterexample to the claim as stated): `"-1"` is neither `"a"`,
nor `"l"`, nor parseable as a non-negative integer, yet `show_values_style`
does not fail on it — Python `int` accepts a sign, so the claim that every
such string yields the invalid-mode error is false. -/
theorem show_values_style_counterexample :
    ¬ (∀ s : String, s ≠ "a" → s ≠ "l" → specNonNegInt s = none →
        show_values_style s = Except.error svErrMsg) := by
  intro h
  have h1 : show_values_style "-1" = Except.error svErrMsg :=
    h "-1" (by decide) (by decide) (by decide)
  have h2 : show_values_style "-1" = Except.ok (SVStyle.num (-1)) := rfl
  rw [h2] at h1
  exact Except.noConfusion h1

/-- C2 (amended): `show_values_style` maps `"a"` to All, `"l"` to Line and
`"5"` to a width of five; the unspecified default is the literal `"l"`
(Line); and it fails with the invalid-mode error exactly when the argument
is neither `"a"`, nor `"l"`, nor parseable as a Python integer (optional
whitespace, optional sign, digits — negative integers are accepted). -/
theorem show_values_style_spec :
    show_values_style "a" = .ok .a ∧ show_values_style "l" = .ok .l ∧
    show_values_style "5" = .ok (.num 5) ∧ show_values_style "x" = .error svErrMsg ∧
    show_values_style show_values_default = .ok .l ∧
    (∀ s : String, show_values_style s = .error svErrMsg ↔
      (s ≠ "a" ∧ s ≠ "l" ∧ pyInt s = none)) := by
  refine ⟨rfl, rfl, rfl, rfl, rfl, ?_⟩
  intro s
  unfold show_values_style
  by_cases h1 : s = "a"
  · simp [h1]
  · rw [if_neg h1]
    by_cases h2 : s = "l"
    · simp [h2]
    · rw [if_neg h2]
      cases hpi : pyInt s with
      | none => simp [h1, h2]
      | some n => simp [h1, h2]

/-- Witness for the amended C2: a string that is none of the three forms
fails with the invalid-mode error. -/
theorem show_values_style_spec_witness :
    show_values_style "zz" = Except.error svErrMsg :=
  (show_values_style_spec.2.2.2.2.2 "zz").mpr ⟨by decide, by decide, by decide⟩

/-- C3 (code behaviour at the failing input): with width 3 and text
`bXYZdef`, the match on `XYZ` starts at offset 1, so the spec promises the
preceding character `b` before the highlight; the code computes
`text[start - chars:start]` = `text[-2:1]`, which Python resolves to the
empty slice near the end of the text, so `b` is absent from the output. -/
theorem context_mode_drops_short_leading_context :
    get_value_surrounded [Tok.lit 'X', Tok.lit 'Y', Tok.lit 'Z'] false 3 "bXYZdef".toList
      = colored "XYZ".toList ++ "def".toList ++ ['\n', '\n']
    ∧ 'b' ∉ get_value_surrounded [Tok.lit 'X', Tok.lit 'Y', Tok.lit 'Z'] false 3 "bXYZdef".toList
    ∧ locate_surrounded [Tok.lit 'X', Tok.lit 'Y', Tok.lit 'Z'] false "bXYZdef".toList = [(1, 4)] := by
  refine ⟨by decide, by decide, by decide⟩

/-- C7 (counterexample to "holds equally"): `get_value_all` passes
`re.DOTALL` to the locator but `get_value_surrounded` does not, so on the
pattern `a.b` and text `a\nb` the All-mode locator finds a match spanning
the newline while the Context-mode locator finds nothing. -/
theorem dotall_only_in_all_mode :
    compileFrag "a.b" = .pat [Tok.lit 'a', Tok.dot, Tok.lit 'b'] ∧
    locate_all [Tok.lit 'a', Tok.dot, Tok.lit 'b'] false "a\nb".toList = [(0, 3)] ∧
    locate_surrounded [Tok.lit 'a', Tok.dot, Tok.lit 'b'] false "a\nb".toList = [] := by
  refine ⟨by decide, by decide, by decide⟩

/-- C7 (amended): both All and Context mode locate matches against the
whole text in one pass and a match may span an embedded newline in either
mode; for patterns without `.` the two locators agree exactly, but All
mode additionally sets `DOTALL`, so `.` matches a newline only there. -/
theorem whole_text_locators_agree_without_dot :
    (∀ (p : List Tok) (ign : Bool) (text : List Char), dotFree p = true →
      locate_all p ign text = locate_surrounded p ign text) ∧
    locate_all [Tok.lit 'a', Tok.lit '\n', Tok.lit 'b'] false "a\nb".toList = [(0, 3)] ∧
    locate_surrounded [Tok.lit 'a', Tok.lit '\n', Tok.lit 'b'] false "a\nb".toList = [(0, 3)] := by
  refine ⟨?_, by decide, by decide⟩
  intro p ign text hp
  unfold locate_all locate_surrounded finditer
  exact finditerGo_congr p ⟨true, ign⟩ ⟨false, ign⟩ (matchTokens_dotFree p hp ign) _ 0 text

/-- Witness for the amended C7: a dot-free pattern is located identically
by the two modes on a concrete text. -/
theorem whole_text_locators_agree_without_dot_witness :
    dotFree [Tok.lit 'q'] = true ∧
    locate_all [Tok.lit 'q'] false "aqb".toList = locate_surrounded [Tok.lit 'q'] false "aqb".toList :=
  ⟨by decide,
    whole_text_locators_agree_without_dot.1 [Tok.lit 'q'] false "aqb".toList (by decide)⟩

/-! ### Context-mode machinery -/

theorem escFree_cons (c : Char) (l : List Char) :
    escFree (c :: l) = true ↔ c ≠ esc ∧ escFree l = true := by
  simp [escFree]

theorem escFree_ctxPre (text : List Char) (w s : Nat) (h : escFree text = true) :
    escFree (ctxPre text w s) = true := by
  unfold ctxPre
  rw [escFree_cons]
  exact ⟨by decide, escFree_pySlice _ _ _ h⟩

theorem innerEndsOK_step (len w s e : Nat) (rest : List (Nat × Nat))
    (h : innerEndsOK len w ((s, e) :: rest) = true) :
    innerEndsOK len w rest = true ∧ (rest ≠ [] → e + w ≤ len) := by
  cases rest with
  | nil => exact ⟨rfl, fun h2 => absurd rfl h2⟩
  | cons q r =>
    simp only [innerEndsOK, Bool.and_eq_true, decide_eq_true_eq] at h
    exact ⟨h.2, fun _ => h.1⟩

theorem renderSurroundedGo_refCtx (text : List Char) (w : Nat) :
    ∀ (rest : List (Nat × Nat)) (pe : Nat) (A : List Char),
      spansChain pe rest = true → spansBounded text.length rest = true →
      innerEndsOK text.length w rest = true →
      (rest ≠ [] → pe + w ≤ text.length) →
      renderSurroundedGo text (w : Int) (A ++ sliceN text pe (pe + w)) ((pe : Int) + (w : Int)) rest
        = pyStrip (A ++ refCtxGo text w (some pe) rest) ++ ['\n', '\n'] := by
  intro rest
  induction rest with
  | nil =>
    intro pe A _ _ _ _
    simp only [renderSurroundedGo, refCtxGo]
  | cons q rest2 ih =>
    obtain ⟨s, e⟩ := q
    intro pe A hc hb hinner hpe
    rw [spansChain_cons] at hc
    obtain ⟨h1, h2, h3⟩ := hc
    rw [spansBounded_cons] at hb
    obtain ⟨he, hb2⟩ := hb
    obtain ⟨hinner2, hinner1⟩ := innerEndsOK_step text.length w s e rest2 hinner
    have hpew : pe + w ≤ text.length := hpe (by simp)
    simp only [renderSurroundedGo, refCtxGo]
    have hcast1 : pySlice text (s : Int) (e : Int) = sliceN text s e := pySlice_natCast text s e
    have hcast2 : pySlice text (e : Int) ((e : Int) + (w : Int)) = sliceN text e (e + w) := by
      rw [show ((e : Int) + (w : Int)) = ((e + w : Nat) : Int) by push_cast; rfl]
      exact pySlice_natCast text e (e + w)
    rw [hcast1, hcast2]
    by_cases hA : pe + w > s
    · rw [if_pos (show ((pe : Int) + (w : Int)) ≠ 0 ∧ ((pe : Int) + (w : Int)) > (s : Int) by
        constructor
        · omega
        · omega)]
      have hk : ((s : Int) - ((pe : Int) + (w : Int))) = -(((pe + w - s : Nat)) : Int) := by
        omega
      rw [hk]
      have hlen_slice : (sliceN text pe (pe + w)).length = w := by
        rw [sliceN_length text pe (pe + w) (by omega) hpew]
        omega
      rw [pyTake_neg A _ (pe + w - s) (by omega) (by rw [hlen_slice]; omega)]
      rw [hlen_slice]
      have htake : (sliceN text pe (pe + w)).take (w - (pe + w - s)) = sliceN text pe s := by
        rw [sliceN_take text pe (pe + w) (w - (pe + w - s)) (by omega)]
        congr 1
        omega
      rw [htake]
      rw [ih e ((A ++ sliceN text pe s) ++ colored (sliceN text s e)) h3 hb2 hinner2 hinner1]
      rw [if_pos (show s < pe + 2 * w by omega)]
      simp [List.append_assoc]
    · by_cases hB : s < pe + 2 * w
      · rw [if_neg (by omega), if_pos (show ((pe : Int) + (w : Int)) ≠ 0 ∧
          ((pe : Int) + (w : Int)) > (s : Int) - (w : Int) by
            constructor
            · omega
            · omega)]
        have hcast3 : pySlice text ((pe : Int) + (w : Int)) (s : Int) = sliceN text (pe + w) s := by
          rw [show ((pe : Int) + (w : Int)) = ((pe + w : Nat) : Int) by push_cast; rfl]
          exact pySlice_natCast text (pe + w) s
        rw [hcast3]
        have hmerge : (A ++ sliceN text pe (pe + w)) ++ sliceN text (pe + w) s
            = A ++ sliceN text pe s := by
          rw [List.append_assoc, ← sliceN_append text pe (pe + w) s (by omega) (by omega)]
        rw [hmerge]
        rw [ih e ((A ++ sliceN text pe s) ++ colored (sliceN text s e)) h3 hb2 hinner2 hinner1]
        rw [if_pos hB]
        simp [List.append_assoc]
      · rw [if_neg (by omega), if_neg (by omega)]
        have hform : (A ++ sliceN text pe (pe + w)) ++ '\n' :: pySlice text ((s : Int) - (w : Int)) (s : Int)
            = (A ++ (sliceN text pe (pe + w) ++ ctxPre text w s)) := by
          unfold ctxPre
          simp [List.append_assoc]
        rw [hform]
        rw [ih e ((A ++ (sliceN text pe (pe + w) ++ ctxPre text w s)) ++ colored (sliceN text s e))
          h3 hb2 hinner2 hinner1]
        rw [if_neg hB]
        simp [List.append_assoc]

theorem renderSurrounded_eq_refCtx (text : List Char) (w : Nat) (spans : List (Nat × Nat))
    (hok : spansOK text.length spans = true) (hinner : innerEndsOK text.length w spans = true) :
    renderSurrounded text (w : Int) spans = refCtx text w spans := by
  unfold spansOK at hok
  rw [Bool.and_eq_true] at hok
  obtain ⟨hc, hb⟩ := hok
  cases spans with
  | nil => simp [renderSurrounded, renderSurroundedGo, refCtx, refCtxGo, pyStrip, rstripWs]
  | cons q rest =>
    obtain ⟨s, e⟩ := q
    rw [spansChain_cons] at hc
    obtain ⟨h1, h2, h3⟩ := hc
    rw [spansBounded_cons] at hb
    obtain ⟨he, hb2⟩ := hb
    obtain ⟨hinner2, hinner1⟩ := innerEndsOK_step text.length w s e rest hinner
    unfold renderSurrounded refCtx
    simp only [renderSurroundedGo, refCtxGo]
    rw [if_neg (show ¬ ((0 : Int) ≠ 0 ∧ (0 : Int) > (s : Int)) by omega)]
    rw [if_neg (show ¬ ((0 : Int) ≠ 0 ∧ (0 : Int) > (s : Int) - (w : Int)) by omega)]
    have hcast1 : pySlice text (s : Int) (e : Int) = sliceN text s e := pySlice_natCast text s e
    have hcast2 : pySlice text (e : Int) ((e : Int) + (w : Int)) = sliceN text e (e + w) := by
      rw [show ((e : Int) + (w : Int)) = ((e + w : Nat) : Int) by push_cast; rfl]
      exact pySlice_natCast text e (e + w)
    rw [hcast1, hcast2]
    have hform : (([] : List Char) ++ '\n' :: pySlice text ((s : Int) - (w : Int)) (s : Int))
        = ctxPre text w s := by
      unfold ctxPre
      simp
    rw [hform]
    rw [renderSurroundedGo_refCtx text w rest e (ctxPre text w s ++ colored (sliceN text s e))
      h3 hb2 hinner2 hinner1]

/-- C1 (counterexample to the claim as stated): pattern `X` on text
`0123456XaX` with width 5 gives the consecutive spans (7,8) and (9,10),
closer together than `2*width`; the claim says the region between them
(the character `a`) is rendered exactly once, but the truncation
`value[:start - end_of_previous]` over-chops when the earlier trailing
context ran past the end of the text, so `a` never appears in the output. -/
theorem context_merge_loses_between_region :
    locate_surrounded [Tok.lit 'X'] false "0123456XaX".toList = [(7, 8), (9, 10)] ∧
    countOcc ['a'] (get_value_surrounded [Tok.lit 'X'] false 5 "0123456XaX".toList) = 0 := by
  refine ⟨by decide, by decide⟩

/-- C1 (amended): for two consecutive matches closer together than
`2*width`, provided the earlier match's trailing context stays inside the
text (`e1 + w ≤ length`), the rendered output is the leading-context
block, the first highlighted span, the between-region `text[e1:s2]`
exactly once with no duplicated characters, the second highlighted span,
and its trailing context. -/
theorem context_merge_dedup (text : List Char) (w s1 e1 s2 e2 : Nat)
    (h1 : s1 ≤ e1) (h2 : e1 ≤ s2) (h3 : s2 ≤ e2) (h4 : e2 ≤ text.length)
    (h5 : e1 + w ≤ text.length) (hclose : s2 < e1 + 2 * w) :
    renderSurrounded text (w : Int) [(s1, e1), (s2, e2)] =
      pyStrip (ctxPre text w s1 ++ colored (sliceN text s1 e1) ++ sliceN text e1 s2
        ++ colored (sliceN text s2 e2) ++ sliceN text e2 (e2 + w)) ++ ['\n', '\n'] := by
  rw [renderSurrounded_eq_refCtx text w [(s1, e1), (s2, e2)]
    (by simp [spansOK, spansChain, spansBounded]; omega)
    (by simp [innerEndsOK]; omega)]
  unfold refCtx
  simp only [refCtxGo]
  rw [if_pos hclose]
  simp [List.append_assoc]

/-- Witness for the amended C1 at a concrete input. -/
theorem context_merge_dedup_witness :
    (4 : Nat) < 3 + 2 * 2 ∧ 3 + 2 ≤ ("0123456789".toList).length ∧
    renderSurrounded "0123456789".toList ((2 : Nat) : Int) [(2, 3), (4, 5)] =
      pyStrip (ctxPre "0123456789".toList 2 2 ++ colored (sliceN "0123456789".toList 2 3)
        ++ sliceN "0123456789".toList 3 4 ++ colored (sliceN "0123456789".toList 4 5)
        ++ sliceN "0123456789".toList 5 7) ++ ['\n', '\n'] :=
  ⟨by decide, by decide,
    context_merge_dedup "0123456789".toList 2 2 3 4 5 (by decide) (by decide) (by decide)
      (by decide) (by decide) (by decide)⟩

theorem ctxMid_spec (text : List Char) (w : Nat) :
    ∀ (rest : List (Nat × Nat)) (s e : Nat),
      ctxMid text w (s, e) rest
        ++ sliceN text (lastEnd (s, e) rest) (lastEnd (s, e) rest + w)
        = colored (sliceN text s e) ++ refCtxGo text w (some e) rest := by
  intro rest
  induction rest with
  | nil =>
    intro s e
    simp only [ctxMid, lastEnd, refCtxGo]
  | cons q2 r ih =>
    obtain ⟨s2, e2⟩ := q2
    intro s e
    simp only [ctxMid, lastEnd, refCtxGo, List.append_assoc]
    rw [ih s2 e2]

theorem ctxMid_shape (text : List Char) (w s e : Nat) (rest : List (Nat × Nat)) :
    ∃ X, ctxMid text w (s, e) rest = colored (sliceN text s e) ++ X := by
  cases rest with
  | nil => exact ⟨[], by simp [ctxMid]⟩
  | cons q2 r =>
    obtain ⟨s2, e2⟩ := q2
    refine ⟨(if s2 < e + 2 * w then sliceN text e s2
      else sliceN text e (e + w) ++ ctxPre text w s2) ++ ctxMid text w (s2, e2) r, ?_⟩
    simp only [ctxMid, List.append_assoc]

theorem ctxMid_head (text : List Char) (w s e : Nat) (rest : List (Nat × Nat)) :
    ∃ t, ctxMid text w (s, e) rest = esc :: t := by
  obtain ⟨X, hX⟩ := ctxMid_shape text w s e rest
  refine ⟨opTag1 ++ esc :: (opTag2 ++ (sliceN text s e ++ (hlClose ++ X))), ?_⟩
  rw [hX]
  simp [colored, hlOpen, List.append_assoc]

theorem ctxMid_last (text : List Char) (w : Nat) :
    ∀ (rest : List (Nat × Nat)) (s e : Nat), ∃ t, ctxMid text w (s, e) rest = t ++ ['m'] := by
  intro rest
  induction rest with
  | nil =>
    intro s e
    refine ⟨hlOpen ++ sliceN text s e ++ [esc, '[', '0'], ?_⟩
    simp [ctxMid, colored, hlClose, clTag, List.append_assoc]
  | cons q2 r ih =>
    obtain ⟨s2, e2⟩ := q2
    intro s e
    obtain ⟨t2, h2⟩ := ih s2 e2
    refine ⟨colored (sliceN text s e)
      ++ ((if s2 < e + 2 * w then sliceN text e s2
           else sliceN text e (e + w) ++ ctxPre text w s2) ++ t2), ?_⟩
    simp only [ctxMid, h2, List.append_assoc]

theorem rstripWs_append (a b : List Char) :
    rstripWs (a ++ b) = if (rstripWs b).isEmpty then rstripWs a else a ++ rstripWs b := by
  unfold rstripWs
  rw [List.reverse_append, List.dropWhile_append]
  by_cases h : (b.reverse.dropWhile isPyWs).isEmpty
  · rw [if_pos h, if_pos (by simpa using h)]
  · rw [if_neg h, if_neg (by simpa using h)]
    rw [List.reverse_append, List.reverse_reverse]

theorem rstripWs_ends_m (t : List Char) : rstripWs (t ++ ['m']) = t ++ ['m'] := by
  unfold rstripWs
  rw [List.reverse_append]
  have h : List.dropWhile isPyWs (['m'].reverse ++ t.reverse) = 'm' :: t.reverse := by
    have hm : isPyWs 'm' = false := by decide
    simp [List.dropWhile_cons, hm]
  rw [h]
  simp

theorem pyStrip_frame (pre mid post t1 t2 : List Char)
    (hhead : mid = esc :: t1) (hlast : mid = t2 ++ ['m']) :
    pyStrip (pre ++ (mid ++ post)) = pre.dropWhile isPyWs ++ (mid ++ rstripWs post) := by
  unfold pyStrip
  rw [List.dropWhile_append]
  by_cases h : (pre.dropWhile isPyWs).isEmpty
  · rw [if_pos h]
    rw [List.dropWhile_append]
    have hm : mid.dropWhile isPyWs = mid := by
      rw [hhead]
      have hesc : isPyWs esc = false := by decide
      simp [List.dropWhile_cons, hesc]
    rw [hm, if_neg (by rw [hhead]; simp)]
    have hpre : pre.dropWhile isPyWs = [] := by
      rwa [List.isEmpty_iff] at h
    rw [hpre, List.nil_append]
    rw [rstripWs_append]
    by_cases h2 : (rstripWs post).isEmpty
    · rw [if_pos h2]
      have hpost : rstripWs post = [] := by rwa [List.isEmpty_iff] at h2
      rw [hpost, hlast, rstripWs_ends_m]
      simp
    · rw [if_neg h2]
  · rw [if_neg h]
    rw [show pre.dropWhile isPyWs ++ (mid ++ post) = (pre.dropWhile isPyWs ++ mid) ++ post by
      simp [List.append_assoc]]
    rw [rstripWs_append]
    by_cases h2 : (rstripWs post).isEmpty
    · rw [if_pos h2]
      have hpost : rstripWs post = [] := by rwa [List.isEmpty_iff] at h2
      rw [hpost]
      rw [show pre.dropWhile isPyWs ++ mid = (pre.dropWhile isPyWs ++ t2) ++ ['m'] by
        rw [hlast]; simp [List.append_assoc]]
      rw [rstripWs_ends_m]
      simp [hlast, List.append_assoc]
    · rw [if_neg h2]
      simp [List.append_assoc]

theorem ctxMid_highlights (text : List Char) (w : Nat) (hesc : escFree text = true) :
    ∀ (rest : List (Nat × Nat)) (s e : Nat) (t : List Char),
      highlights (ctxMid text w (s, e) rest ++ t) =
        (highlights t).map (fun r => spanSlices text ((s, e) :: rest) ++ r) := by
  intro rest
  induction rest with
  | nil =>
    intro s e t
    simp only [ctxMid]
    rw [highlights_colored _ _ (escFree_sliceN text s e hesc)]
    cases highlights t <;> simp [spanSlices]
  | cons q2 r ih =>
    obtain ⟨s2, e2⟩ := q2
    intro s e t
    simp only [ctxMid, List.append_assoc]
    rw [highlights_colored _ _ (escFree_sliceN text s e hesc)]
    have hconn : escFree (if s2 < e + 2 * w then sliceN text e s2
        else sliceN text e (e + w) ++ ctxPre text w s2) = true := by
      by_cases hcc : s2 < e + 2 * w
      · rw [if_pos hcc]
        exact escFree_sliceN _ _ _ hesc
      · rw [if_neg hcc]
        rw [escFree_append, Bool.and_eq_true]
        exact ⟨escFree_sliceN _ _ _ hesc, escFree_ctxPre _ _ _ hesc⟩
    rw [highlights_prepend _ _ hconn]
    rw [ih s2 e2 t]
    cases highlights t <;> simp [spanSlices]

theorem highlights_refCtx (text : List Char) (w : Nat) (spans : List (Nat × Nat))
    (hesc : escFree text = true) :
    highlights (refCtx text w spans) = some (spanSlices text spans) := by
  cases spans with
  | nil =>
    unfold refCtx
    simp only [refCtxGo]
    rw [show pyStrip ([] : List Char) = [] by simp [pyStrip, rstripWs]]
    rw [List.nil_append]
    rw [highlights_escFree _ escFree_sep]
    simp [spanSlices]
  | cons q rest =>
    obtain ⟨s, e⟩ := q
    unfold refCtx
    simp only [refCtxGo]
    rw [show ctxPre text w s ++ colored (sliceN text s e) ++ refCtxGo text w (some e) rest
        = ctxPre text w s ++ (ctxMid text w (s, e) rest
            ++ sliceN text (lastEnd (s, e) rest) (lastEnd (s, e) rest + w)) by
      rw [ctxMid_spec text w rest s e]
      simp [List.append_assoc]]
    obtain ⟨t1, h1⟩ := ctxMid_head text w s e rest
    obtain ⟨t2, h2⟩ := ctxMid_last text w rest s e
    rw [pyStrip_frame (ctxPre text w s) _ _ t1 t2 h1 h2]
    rw [List.append_assoc, List.append_assoc]
    rw [highlights_prepend _ _ (escFree_dropWhile _ _ (escFree_ctxPre text w s hesc))]
    rw [ctxMid_highlights text w hesc rest s e]
    rw [highlights_escFree _ (by
      rw [escFree_append, Bool.and_eq_true]
      exact ⟨escFree_rstripWs _ (escFree_sliceN _ _ _ hesc), escFree_sep⟩)]
    simp

theorem highlights_lineGo (p : List Tok) (ign : Bool) :
    ∀ (lines : List (List Char)), (∀ line ∈ lines, escFree line = true) →
      highlights (lineGo p ign [] lines) =
        some ((lines.map (fun line => spanSlices line (locate_line p ign line))).flatten) := by
  intro lines
  induction lines with
  | nil =>
    intro _
    simp only [lineGo, List.map_nil, List.flatten_nil]
    rfl
  | cons line rest ih =>
    intro hl
    have hline : escFree line = true := hl line (List.mem_cons_self line rest)
    have hrest : ∀ l ∈ rest, escFree l = true := fun l hm => hl l (List.mem_cons_of_mem _ hm)
    simp only [lineGo, List.map_cons, List.flatten_cons]
    by_cases hms : locate_line p ign line = []
    · rw [if_pos hms, ih hrest, hms]
      simp [spanSlices]
    · rw [if_neg hms]
      rw [lineGo_acc]
      simp only [List.nil_append]
      have hok : spansOK line.length (locate_line p ign line) = true :=
        finditer_spansOK p ⟨false, ign⟩ line
      unfold spansOK at hok
      rw [Bool.and_eq_true] at hok
      rw [highlights_walk line (locate_line p ign line) 0 (lineGo p ign [] rest)
        hok.1 hok.2 hline]
      rw [ih hrest]
      simp

/-- C9 (counterexample to the claim as stated): in Context mode with
width 5 on text `0123456XaX`, the truncation for the second match chops
two bytes off the first match's closing marker, so the output no longer
parses as well-formed highlight groups — a highlighted character has been
split from its markers. -/
theorem context_truncation_breaks_markers :
    locate_surrounded [Tok.lit 'X'] false "0123456XaX".toList = [(7, 8), (9, 10)] ∧
    escFree "0123456XaX".toList = true ∧
    highlights (get_value_surrounded [Tok.lit 'X'] false 5 "0123456XaX".toList) = none := by
  refine ⟨by decide, by decide, by decide⟩

/-- C9 (amended): highlight markers wrap exactly the matched substrings in
all three display modes — unconditionally in All and Line mode, and in
Context mode provided every non-final match's trailing context window
stays inside the text (`end + width ≤ length`); under those conditions the
rendered output parses as exactly the list of matched substrings, each
intact inside its own pair of markers, with no surrounding character
marked. -/
theorem highlight_markers_exact :
    (∀ (text : List Char) (spans : List (Nat × Nat)),
      spansOK text.length spans = true → escFree text = true →
      highlights (renderAll text spans) = some (spanSlices text spans))
    ∧ (∀ (p : List Tok) (ign : Bool) (text : List Char), escFree text = true →
      highlights (get_value_line p ign text) =
        some (((splitlines text).map
          (fun line => spanSlices line (locate_line p ign line))).flatten))
    ∧ (∀ (text : List Char) (w : Nat) (spans : List (Nat × Nat)),
      spansOK text.length spans = true → innerEndsOK text.length w spans = true →
      escFree text = true →
      highlights (renderSurrounded text (w : Int) spans) = some (spanSlices text spans)) := by
  refine ⟨?_, ?_, ?_⟩
  · intro text spans hok hesc
    unfold spansOK at hok
    rw [Bool.and_eq_true] at hok
    unfold renderAll
    rw [show highlightWalkGo text [] 0 spans = highlightWalkGo text [] 0 spans ++ [] by simp]
    rw [highlights_walk text spans 0 [] hok.1 hok.2 hesc]
    rw [show highlights ([] : List Char) = some [] from rfl]
    simp
  · intro p ign text hesc
    unfold get_value_line
    exact highlights_lineGo p ign (splitlines text) (escFree_of_splitlines text hesc)
  · intro text w spans hok hinner hesc
    rw [renderSurrounded_eq_refCtx text w spans hok hinner]
    exact highlights_refCtx text w spans hesc

/-- Witness for the amended C9 at concrete inputs in each mode. -/
theorem highlight_markers_exact_witness :
    highlights (renderAll "abcXYZdef".toList [(3, 6)]) = some [['X', 'Y', 'Z']] ∧
    highlights (renderSurrounded "abcXYZdef".toList ((3 : Nat) : Int) [(3, 6)])
      = some [['X', 'Y', 'Z']] :=
  ⟨by
    have h := highlight_markers_exact.1 "abcXYZdef".toList [(3, 6)] (by decide) (by decide)
    rw [h]
    decide,
   by
    have h := highlight_markers_exact.2.2 "abcXYZdef".toList 3 [(3, 6)] (by decide) (by decide)
      (by decide)
    rw [h]
    decide⟩
